import Mathlib

/-!
Shallow embedding of a Mamdani-style fuzzy inference system
(`final.py`): triangular/trapezoidal membership functions, linguistic
variables over a discretized universe, rule firing by min, max
aggregation and centroid defuzzification.

Real numbers are modelled as rationals.  Python runtime failures — a
`KeyError` on a missing dictionary key, a `ZeroDivisionError` inside a
membership formula, an `IndexError` when the output registry is empty,
unpacking a parameter list of the wrong length — are modelled by
`Option`: `none` is an uncaught exception, `some v` a returned value.
Python dictionaries (insertion ordered, with lookup by key) are
modelled as association lists.
-/

/-- Universe discretization, `np.arange(start, stop, step)`: the points
`start + i * step` for `0 ≤ i < ⌈(stop - start) / step⌉` (an empty list
when the ceiling is not positive). -/
def arange (start stop step : ℚ) : List ℚ :=
  (List.range (⌈(stop - start) / step⌉).toNat).map fun i : ℕ => start + (i : ℚ) * step

/-- A fuzzy linguistic variable (`class FuzzySet`): a name, a
discretized universe (field `univ`, modelling the source attribute
`universe`, a Lean keyword), and a registry mapping a label to a pair
of membership-function kind (`"trimf"` or `"trapmf"`) and parameter
list, in insertion order. -/
structure FuzzySet where
  name : String
  univ : List ℚ
  membership_functions : List (String × String × List ℚ)

/-- Constructor `FuzzySet.__init__`: the universe is
`np.arange(universe_range[0], universe_range[1], universe_range[2])`
and the membership registry starts empty. -/
def FuzzySet.create (name : String) (universe_range : ℚ × ℚ × ℚ) : FuzzySet :=
  ⟨name, arange universe_range.1 universe_range.2.1 universe_range.2.2, []⟩

/-- Triangular membership function (`FuzzySet._trimf`).  The result is
`none` exactly when the branch the source selects performs a division
by zero (Python raises `ZeroDivisionError` there). -/
def trimf (x a b c : ℚ) : Option ℚ :=
  if x ≤ a ∨ x ≥ c then some 0
  else if a < x ∧ x ≤ b then
    if b - a = 0 then none else some ((x - a) / (b - a))
  else
    if c - b = 0 then none else some ((c - x) / (c - b))

/-- Trapezoidal membership function (`FuzzySet._trapmf`), with the same
`none`-on-zero-division convention as `trimf`. -/
def trapmf (x a b c d : ℚ) : Option ℚ :=
  if x ≤ a ∨ x ≥ d then some 0
  else if b ≤ x ∧ x ≤ c then some 1
  else if a < x ∧ x < b then
    if b - a = 0 then none else some ((x - a) / (b - a))
  else
    if d - c = 0 then none else some ((d - x) / (d - c))

/-- Membership lookup (`FuzzySet.calculate_membership`): `none` models
the `KeyError` raised on an unregistered label and the unpacking error
on a parameter list of the wrong length; an unrecognized kind string
returns `0` as in the source. -/
def FuzzySet.calculate_membership (fs : FuzzySet) (name : String) (x : ℚ) : Option ℚ :=
  match fs.membership_functions.lookup name with
  | none => none
  | some (mf_type, params) =>
    if mf_type = "trimf" then
      match params with
      | [a, b, c] => trimf x a b c
      | _ => none
    else if mf_type = "trapmf" then
      match params with
      | [a, b, c, d] => trapmf x a b c d
      | _ => none
    else
      some 0

/-- A rule: the AND-ed list of `(variable name, label)` antecedents and
one `(variable name, label)` consequent. -/
abbrev Rule := List (String × String) × String × String

/-- The inference engine (`class FuzzyInferenceSystem`): insertion
ordered registries of input and output variables, and the rule list. -/
structure FuzzyInferenceSystem where
  input_sets : List (String × FuzzySet)
  output_sets : List (String × FuzzySet)
  rules : List Rule

/-- Inner loop of the rule-strength phase of
`FuzzyInferenceSystem.evaluate`: starting from `strength`, fold the
antecedents taking `min` with each membership; `none` models a
`KeyError` on a missing input value (`inputs[var_name]`) or an
unregistered input variable (`self.input_sets[var_name]`), or a failure
inside the membership computation. -/
def rule_strength (input_sets : List (String × FuzzySet)) (inputs : String → Option ℚ) :
    ℚ → List (String × String) → Option ℚ
  | strength, [] => some strength
  | strength, (var_name, mf_name) :: rest =>
    match inputs var_name with
    | none => none
    | some x =>
      match input_sets.lookup var_name with
      | none => none
      | some fs =>
        match fs.calculate_membership mf_name x with
        | none => none
        | some membership => rule_strength input_sets inputs (min strength membership) rest

/-- First phase of `FuzzyInferenceSystem.evaluate`: the list of
`(strength, consequent)` pairs, one per rule, each strength starting
from `1.0`. -/
def rule_strengths (input_sets : List (String × FuzzySet)) (inputs : String → Option ℚ) :
    List Rule → Option (List (ℚ × String × String))
  | [] => some []
  | (antecedents, consequent) :: rest =>
    match rule_strength input_sets inputs 1 antecedents with
    | none => none
    | some strength =>
      match rule_strengths input_sets inputs rest with
      | none => none
      | some l => some ((strength, consequent) :: l)

/-- Aggregation loop of `FuzzyInferenceSystem.evaluate` at one universe
point `x`: starting from `max_membership = 0`, fold the rules taking
`max` with `min(strength, membership of the consequent label at x)`. -/
def max_membership (output_set : FuzzySet) (x : ℚ) :
    ℚ → List (ℚ × String × String) → Option ℚ
  | acc, [] => some acc
  | acc, (strength, _, mf_name) :: rest =>
    match output_set.calculate_membership mf_name x with
    | none => none
    | some membership => max_membership output_set x (max acc (min strength membership)) rest

/-- Defuzzification loop of `FuzzyInferenceSystem.evaluate` over the
universe points, accumulating the centroid `(numerator, denominator)`. -/
def centroid_sums (output_set : FuzzySet) (rs : List (ℚ × String × String)) :
    ℚ → ℚ → List ℚ → Option (ℚ × ℚ)
  | numerator, denominator, [] => some (numerator, denominator)
  | numerator, denominator, x :: rest =>
    match max_membership output_set x 0 rs with
    | none => none
    | some mm => centroid_sums output_set rs (numerator + x * mm) (denominator + mm) rest

/-- `FuzzyInferenceSystem.evaluate`: rule firing, max aggregation and
centroid defuzzification.  Returns `0` on an empty rule list and on a
zero denominator; fails (`none`) when the output registry is empty
(`IndexError` on the first element of `list(self.output_sets.values())`)
or when any phase raises. -/
def FuzzyInferenceSystem.evaluate (fis : FuzzyInferenceSystem)
    (inputs : String → Option ℚ) : Option ℚ :=
  match rule_strengths fis.input_sets inputs fis.rules with
  | none => none
  | some rs =>
    if rs = [] then some 0
    else
      match fis.output_sets with
      | [] => none
      | (_, output_set) :: _ =>
        match centroid_sums output_set rs 0 0 output_set.univ with
        | none => none
        | some (numerator, denominator) =>
          some (if denominator ≠ 0 then numerator / denominator else 0)

/-- Claim C7: an engine whose rule list is empty returns `some 0` for
every input mapping and arbitrary (even empty) variable registries:
no input value is read, no registered variable is accessed, and no
failure is possible. -/
theorem evaluate_empty_rules (input_sets output_sets : List (String × FuzzySet))
    (inputs : String → Option ℚ) :
    FuzzyInferenceSystem.evaluate ⟨input_sets, output_sets, []⟩ inputs = some 0 := rfl

/-- Claim C2 counterexample: the source's own shapes refute the claim as
stated for every parameter triple.  For `Triangular(7,10,10)` (the
repository's `house_eval` label `very_high`) and `Triangular(0,0,3)`
(`very_low`), the claim asserts degree exactly `1` at `x = b`, but the
code returns `0`; for `Triangular(0,5,3)` at `x = 4` the claim's rising
branch asserts `(x-a)/(b-a) = 4/5`, but the code returns `0`. -/
theorem trimf_claim_counterexample :
    (trimf 10 7 10 10 = some 0 ∧ trimf 10 7 10 10 ≠ some 1) ∧
    (trimf 0 0 0 3 = some 0 ∧ trimf 0 0 0 3 ≠ some 1) ∧
    (trimf 4 0 5 3 = some 0 ∧ trimf 4 0 5 3 ≠ some ((4 - 0) / (5 - 0))) := by
  norm_num [trimf]

/-- Claim C2 (amended: parameters strictly ordered, `a < b < c`): the
triangular degree is `0` when `x ≤ a` or `x ≥ c`, `(x-a)/(b-a)` when
`a < x ≤ b`, `(c-x)/(c-b)` when `b < x < c`, and at `x = b` the rising
branch applies, giving exactly `1`; no branch divides by zero. -/
theorem trimf_piecewise (a b c x : ℚ) (hab : a < b) (hbc : b < c) :
    ((x ≤ a ∨ c ≤ x) → trimf x a b c = some 0) ∧
    (a < x → x ≤ b → trimf x a b c = some ((x - a) / (b - a))) ∧
    (b < x → x < c → trimf x a b c = some ((c - x) / (c - b))) ∧
    trimf b a b c = some 1 := by
  refine ⟨fun h => ?_, fun h1 h2 => ?_, fun h1 h2 => ?_, ?_⟩
  · simp only [trimf]
    rw [if_pos h]
  · have hnot : ¬(x ≤ a ∨ x ≥ c) := by
      push_neg
      exact ⟨h1, lt_of_le_of_lt h2 hbc⟩
    simp only [trimf]
    rw [if_neg hnot, if_pos ⟨h1, h2⟩, if_neg (sub_ne_zero.mpr hab.ne')]
  · have hnot : ¬(x ≤ a ∨ x ≥ c) := by
      push_neg
      exact ⟨lt_trans hab h1, h2⟩
    have hnot2 : ¬(a < x ∧ x ≤ b) := fun h => absurd h1 (not_lt.mpr h.2)
    simp only [trimf]
    rw [if_neg hnot, if_neg hnot2, if_neg (sub_ne_zero.mpr hbc.ne')]
  · have hnot : ¬(b ≤ a ∨ b ≥ c) := by
      push_neg
      exact ⟨hab, hbc⟩
    simp only [trimf]
    rw [if_neg hnot, if_pos ⟨hab, le_refl b⟩, if_neg (sub_ne_zero.mpr hab.ne'),
      div_self (sub_ne_zero.mpr hab.ne')]

/-- Claim C2 witness: the amended piecewise description applied to
`Triangular(2,5,8)` at its peak `x = 5`. -/
theorem trimf_piecewise_witness : trimf 5 2 5 8 = some ((5 - 2) / (5 - 2)) :=
  (trimf_piecewise 2 5 8 5 (by norm_num) (by norm_num)).2.1 (by norm_num) (by norm_num)

/-- Claim C3 counterexample: the source's own trapezoids refute the
claim as stated.  For `Trapezoidal(0,0,2,4)` (the repository's
`location` label `bad`) at `x = 0` and for `Trapezoidal(6,8.5,10,10)`
(`interest` label `high`) at `x = 10`, the plateau condition
`b ≤ x ≤ c` holds so the claim asserts degree exactly `1`, but the code
returns `0` (the `x ≤ a`, respectively `x ≥ d`, branch wins). -/
theorem trapmf_claim_counterexample :
    (trapmf 0 0 0 2 4 = some 0 ∧ trapmf 0 0 0 2 4 ≠ some 1) ∧
    (trapmf 10 6 (17 / 2) 10 10 = some 0 ∧ trapmf 10 6 (17 / 2) 10 10 ≠ some 1) := by
  norm_num [trapmf]

/-- Claim C3 (amended: parameters ordered with `a < b ≤ c < d`): the
trapezoidal degree is `0` when `x ≤ a` or `x ≥ d`, exactly `1` when
`b ≤ x ≤ c`, `(x-a)/(b-a)` when `a < x < b`, and `(d-x)/(d-c)` when
`c < x < d`; no branch divides by zero. -/
theorem trapmf_piecewise (a b c d x : ℚ) (hab : a < b) (hbc : b ≤ c) (hcd : c < d) :
    ((x ≤ a ∨ d ≤ x) → trapmf x a b c d = some 0) ∧
    (b ≤ x → x ≤ c → trapmf x a b c d = some 1) ∧
    (a < x → x < b → trapmf x a b c d = some ((x - a) / (b - a))) ∧
    (c < x → x < d → trapmf x a b c d = some ((d - x) / (d - c))) := by
  refine ⟨fun h => ?_, fun h1 h2 => ?_, fun h1 h2 => ?_, fun h1 h2 => ?_⟩
  · simp only [trapmf]
    rw [if_pos h]
  · have hnot : ¬(x ≤ a ∨ x ≥ d) := by
      push_neg
      exact ⟨lt_of_lt_of_le hab h1, lt_of_le_of_lt h2 hcd⟩
    simp only [trapmf]
    rw [if_neg hnot, if_pos ⟨h1, h2⟩]
  · have hnot : ¬(x ≤ a ∨ x ≥ d) := by
      push_neg
      exact ⟨h1, lt_trans (lt_of_lt_of_le h2 hbc) hcd⟩
    have hnot2 : ¬(b ≤ x ∧ x ≤ c) := fun h => absurd h2 (not_lt.mpr h.1)
    simp only [trapmf]
    rw [if_neg hnot, if_neg hnot2, if_pos ⟨h1, h2⟩, if_neg (sub_ne_zero.mpr hab.ne')]
  · have hnot : ¬(x ≤ a ∨ x ≥ d) := by
      push_neg
      exact ⟨lt_trans (lt_of_lt_of_le hab hbc) h1, h2⟩
    have hnot2 : ¬(b ≤ x ∧ x ≤ c) := fun h => absurd h1 (not_lt.mpr h.2)
    have hnot3 : ¬(a < x ∧ x < b) := fun h =>
      lt_irrefl x (lt_trans (lt_of_lt_of_le h.2 hbc) h1)
    simp only [trapmf]
    rw [if_neg hnot, if_neg hnot2, if_neg hnot3, if_neg (sub_ne_zero.mpr hcd.ne')]

/-- Claim C3 witness: the amended piecewise description applied to
`Trapezoidal(0,1,3,4)` on its plateau at `x = 2`. -/
theorem trapmf_piecewise_witness : trapmf 2 0 1 3 4 = some 1 :=
  (trapmf_piecewise 0 1 3 4 2 (by norm_num) (by norm_num) (by norm_num)).2.1
    (by norm_num) (by norm_num)

/-- Claim C8: with non-decreasing parameters, neither membership shape
ever executes a division whose divisor is zero (the result is `some`,
never the `none` that models `ZeroDivisionError`), and the returned
degree lies in `[0,1]`. -/
theorem membership_unit_interval :
    (∀ a b c x : ℚ, a ≤ b → b ≤ c →
      ∃ v, trimf x a b c = some v ∧ 0 ≤ v ∧ v ≤ 1) ∧
    (∀ a b c d x : ℚ, a ≤ b → b ≤ c → c ≤ d →
      ∃ v, trapmf x a b c d = some v ∧ 0 ≤ v ∧ v ≤ 1) := by
  constructor
  · intro a b c x hab hbc
    unfold trimf
    split_ifs with h1 h2 h3 h4
    · exact ⟨0, rfl, le_refl 0, zero_le_one⟩
    · exact absurd h3 (sub_ne_zero.mpr (lt_of_lt_of_le h2.1 h2.2).ne')
    · have hba : 0 < b - a := sub_pos.mpr (lt_of_lt_of_le h2.1 h2.2)
      refine ⟨_, rfl, div_nonneg (by linarith [h2.1]) hba.le, ?_⟩
      rw [div_le_one hba]
      linarith [h2.2]
    · exfalso
      push_neg at h1 h2
      have hx : b < x := h2 h1.1
      have hcb : c = b := by linarith [sub_eq_zero.mp h4]
      linarith [h1.2]
    · push_neg at h1 h2
      have hx : b < x := h2 h1.1
      have hcb : 0 < c - b := sub_pos.mpr (lt_trans hx h1.2)
      refine ⟨_, rfl, div_nonneg (by linarith [h1.2]) hcb.le, ?_⟩
      rw [div_le_one hcb]
      linarith [hx]
  · intro a b c d x hab hbc hcd
    unfold trapmf
    split_ifs with h1 h2 h3 h4 h5
    · exact ⟨0, rfl, le_refl 0, zero_le_one⟩
    · exact ⟨1, rfl, zero_le_one, le_refl 1⟩
    · exact absurd h4 (sub_ne_zero.mpr (lt_trans h3.1 h3.2).ne')
    · have hba : 0 < b - a := sub_pos.mpr (lt_trans h3.1 h3.2)
      refine ⟨_, rfl, div_nonneg (by linarith [h3.1]) hba.le, ?_⟩
      rw [div_le_one hba]
      linarith [h3.2]
    · exfalso
      push_neg at h1 h2 h3
      have hbx : b ≤ x := h3 h1.1
      have hcx : c < x := h2 hbx
      have : d = c := by linarith [sub_eq_zero.mp h5]
      linarith [h1.2]
    · push_neg at h1 h2 h3
      have hbx : b ≤ x := h3 h1.1
      have hcx : c < x := h2 hbx
      have hdc : 0 < d - c := sub_pos.mpr (lt_trans hcx h1.2)
      refine ⟨_, rfl, div_nonneg (by linarith [h1.2]) hdc.le, ?_⟩
      rw [div_le_one hdc]
      linarith [hcx]

/-- Claim C8 witness: the safety statement applied to `Triangular(2,5,8)`
at `x = 3` and `Trapezoidal(0,1,3,4)` at `x = 7`. -/
theorem membership_unit_interval_witness :
    (∃ v, trimf 3 2 5 8 = some v ∧ 0 ≤ v ∧ v ≤ 1) ∧
    (∃ v, trapmf 7 0 1 3 4 = some v ∧ 0 ≤ v ∧ v ≤ 1) :=
  ⟨membership_unit_interval.1 2 5 8 3 (by norm_num) (by norm_num),
   membership_unit_interval.2 0 1 3 4 7 (by norm_num) (by norm_num) (by norm_num)⟩

/-- Claim C9 helper: membership description of `arange`. -/
theorem mem_arange_iff (start stop step p : ℚ) :
    p ∈ arange start stop step ↔
      ∃ i : ℕ, i < (⌈(stop - start) / step⌉).toNat ∧ p = start + (i : ℚ) * step := by
  constructor
  · intro hp
    rw [arange] at hp
    obtain ⟨i, hi, hfi⟩ := List.mem_map.mp hp
    exact ⟨i, List.mem_range.mp hi, hfi.symm⟩
  · rintro ⟨i, hi, rfl⟩
    rw [arange]
    exact List.mem_map.mpr ⟨i, List.mem_range.mpr hi, rfl⟩

/-- Claim C9 helper: each generated index gives a point strictly below
`stop`. -/
theorem arange_point_lt (start stop step : ℚ) (hstep : 0 < step) (i : ℕ)
    (hi : i < (⌈(stop - start) / step⌉).toNat) :
    start + (i : ℚ) * step < stop := by
  have h1 : ((i : ℤ) : ℚ) < (stop - start) / step := Int.lt_ceil.mp (Int.lt_toNat.mp hi)
  have h2 : (i : ℚ) * step < stop - start := by
    rw [lt_div_iff₀ hstep] at h1
    exact_mod_cast h1
  linarith

/-- Claim C9: for a positive step, the generated universe is the
half-open, stop-exclusive arithmetic progression from `start` with
increment `step`: every generated point is strictly less than `stop`,
the points are strictly increasing, every progression value strictly
below `stop` is generated, and the last point is the largest such value
(one further step would reach or pass `stop`). -/
theorem arange_half_open (start stop step : ℚ) (hstep : 0 < step) :
    (∀ p ∈ arange start stop step, p < stop) ∧
    (arange start stop step).Pairwise (· < ·) ∧
    (∀ i : ℕ, start + (i : ℚ) * step < stop →
      start + (i : ℚ) * step ∈ arange start stop step) ∧
    (∀ l, (arange start stop step).getLast? = some l → l < stop ∧ stop ≤ l + step) := by
  refine ⟨?_, ?_, ?_, ?_⟩
  · intro p hp
    obtain ⟨i, hi, rfl⟩ := (mem_arange_iff start stop step p).mp hp
    exact arange_point_lt start stop step hstep i hi
  · exact (List.pairwise_lt_range _).map _
      (fun i j hij => by
        have hm : (i : ℚ) * step < (j : ℚ) * step := by
          apply mul_lt_mul_of_pos_right _ hstep
          exact_mod_cast hij
        linarith)
  · intro i hlt
    refine (mem_arange_iff start stop step _).mpr ⟨i, ?_, rfl⟩
    have h1 : (i : ℚ) * step < stop - start := by linarith
    have h2 : ((i : ℤ) : ℚ) < (stop - start) / step := by
      rw [lt_div_iff₀ hstep]
      exact_mod_cast h1
    exact Int.lt_toNat.mpr (Int.lt_ceil.mpr h2)
  · intro l hl
    have hN : (⌈(stop - start) / step⌉).toNat ≠ 0 := by
      intro h0
      rw [arange, h0] at hl
      simp at hl
    obtain ⟨M, hM⟩ := Nat.exists_eq_succ_of_ne_zero hN
    have hlast : l = start + (M : ℚ) * step := by
      rw [arange, hM, List.range_succ, List.map_append] at hl
      simp only [List.map_cons, List.map_nil, List.getLast?_concat] at hl
      exact (Option.some.inj hl).symm
    have hMlt : M < (⌈(stop - start) / step⌉).toNat := by
      rw [hM]
      exact Nat.lt_succ_self M
    refine ⟨hlast ▸ arange_point_lt start stop step hstep M hMlt, ?_⟩
    have hceil : (0 : ℤ) ≤ ⌈(stop - start) / step⌉ := by
      by_contra hneg
      push_neg at hneg
      rw [Int.toNat_of_nonpos hneg.le] at hN
      exact hN rfl
    have hNcast : ((⌈(stop - start) / step⌉ : ℤ) : ℚ) = ((M : ℚ) + 1) := by
      have ht := Int.toNat_of_nonneg hceil
      rw [← ht, hM]
      push_cast
      ring
    have hq : (stop - start) / step ≤ (M : ℚ) + 1 := by
      rw [← hNcast]
      exact Int.le_ceil _
    have hle : stop - start ≤ ((M : ℚ) + 1) * step := by
      rw [div_le_iff₀ hstep] at hq
      exact hq
    rw [hlast]
    linarith

/-- Claim C9 witness: in the universe `arange 0 10 1` the point `0 + 3·1`
is generated, and the last point `9` is below `10` while one further
step reaches `10`. -/
theorem arange_half_open_witness :
    ((0 : ℚ) + ((3 : ℕ) : ℚ) * 1 ∈ arange 0 10 1) ∧
    ((9 : ℚ) < 10 ∧ (10 : ℚ) ≤ 9 + 1) :=
  ⟨(arange_half_open 0 10 1 (by norm_num)).2.2.1 3 (by norm_num),
   (arange_half_open 0 10 1 (by norm_num)).2.2.2 9 (by norm_num [arange]; decide)⟩

/-- Helper: a successful rule-strength phase yields one entry per rule. -/
theorem rule_strengths_length (input_sets : List (String × FuzzySet))
    (inputs : String → Option ℚ) :
    ∀ (rules : List Rule) (rs : List (ℚ × String × String)),
      rule_strengths input_sets inputs rules = some rs → rs.length = rules.length := by
  intro rules
  induction rules with
  | nil =>
    intro rs h
    simp only [rule_strengths] at h
    rw [← Option.some.inj h]
    rfl
  | cons r rest ih =>
    intro rs h
    obtain ⟨antecedents, consequent⟩ := r
    simp only [rule_strengths] at h
    cases h1 : rule_strength input_sets inputs 1 antecedents with
    | none =>
      rw [h1] at h
      exact absurd h (by simp)
    | some s =>
      rw [h1] at h
      cases h2 : rule_strengths input_sets inputs rest with
      | none =>
        rw [h2] at h
        exact absurd h (by simp)
      | some l =>
        rw [h2] at h
        rw [← Option.some.inj h]
        simp [ih l h2]

/-- Claim C10: an engine with a non-empty rule list but no registered
output variable fails (`none`, the `IndexError` on selecting the first
output variable) for every input mapping — even one under which every
rule strength computes — with no fallback result. -/
theorem evaluate_missing_output (fis : FuzzyInferenceSystem) (inputs : String → Option ℚ)
    (hrules : fis.rules ≠ []) (hout : fis.output_sets = []) :
    fis.evaluate inputs = none := by
  simp only [FuzzyInferenceSystem.evaluate]
  cases h : rule_strengths fis.input_sets inputs fis.rules with
  | none => rfl
  | some rs =>
    have hlen : rs.length = fis.rules.length := rule_strengths_length _ _ _ _ h
    have hne : ¬(rs = []) := by
      intro h0
      rw [h0] at hlen
      exact hrules (List.length_eq_zero.mp hlen.symm)
    cases rs with
    | nil => exact absurd rfl hne
    | cons p rl =>
      rw [hout]
      simp

/-- Claim C10 witness: one rule, empty output registry, inputs that
satisfy the rule's antecedent with membership zero. -/
theorem evaluate_missing_output_witness :
    FuzzyInferenceSystem.evaluate
      ⟨[("a", ⟨"a", [0, 1], [("m", "trimf", [5, 6, 7])]⟩)], [], [([("a", "m")], "o", "l")]⟩
      (fun _ => some 0) = none :=
  evaluate_missing_output
    ⟨[("a", ⟨"a", [0, 1], [("m", "trimf", [5, 6, 7])]⟩)], [], [([("a", "m")], "o", "l")]⟩
    (fun _ => some 0) (by simp) rfl

/-- Helper: when the aggregated membership is `some 0` at every point,
the centroid loop succeeds and leaves its accumulators unchanged. -/
theorem centroid_sums_zero (output_set : FuzzySet) (rs : List (ℚ × String × String)) :
    ∀ univ : List ℚ, (∀ y ∈ univ, max_membership output_set y 0 rs = some 0) →
      ∀ num den : ℚ, centroid_sums output_set rs num den univ = some (num, den) := by
  intro univ
  induction univ with
  | nil =>
    intro _ num den
    rfl
  | cons y rest ih =>
    intro h num den
    simp only [centroid_sums]
    rw [h y (List.mem_cons_self y rest)]
    show centroid_sums output_set rs (num + y * 0) (den + 0) rest = some (num, den)
    rw [mul_zero, add_zero, add_zero]
    exact ih (fun z hz => h z (List.mem_cons_of_mem y hz)) num den

/-- Claim C6: when the aggregation (`max_membership`) yields `0` at
every point of the (first) output variable's universe, the centroid
denominator is exactly zero and `evaluate` returns `some 0` — the
zero-denominator case is a defined fallback, not a failure. -/
theorem evaluate_zero_denominator (fis : FuzzyInferenceSystem) (inputs : String → Option ℚ)
    (oname : String) (output_set : FuzzySet) (rest : List (String × FuzzySet))
    (hout : fis.output_sets = (oname, output_set) :: rest)
    (rs : List (ℚ × String × String))
    (hrs : rule_strengths fis.input_sets inputs fis.rules = some rs)
    (hzero : ∀ y ∈ output_set.univ, max_membership output_set y 0 rs = some 0) :
    fis.evaluate inputs = some 0 := by
  cases rs with
  | nil => simp [FuzzyInferenceSystem.evaluate, hrs]
  | cons p rl =>
    have hcs := centroid_sums_zero output_set (p :: rl) output_set.univ hzero 0 0
    simp [FuzzyInferenceSystem.evaluate, hrs, hout, hcs]

/-- Claim C6 witness: a single always-firing rule whose consequent
membership is zero on every universe point. -/
theorem evaluate_zero_denominator_witness :
    FuzzyInferenceSystem.evaluate
      ⟨[], [("out", ⟨"out", [0, 1, 2], [("far", "trimf", [5, 6, 7])]⟩)], [([], "out", "far")]⟩
      (fun _ => none) = some 0 :=
  evaluate_zero_denominator
    ⟨[], [("out", ⟨"out", [0, 1, 2], [("far", "trimf", [5, 6, 7])]⟩)], [([], "out", "far")]⟩
    (fun _ => none) "out" ⟨"out", [0, 1, 2], [("far", "trimf", [5, 6, 7])]⟩ [] rfl
    [(1, "out", "far")] rfl (by decide)

/-- Claim C5: the worked example.  The universe `(0, 10, 1)` is
`{0,…,9}`; with a single rule of firing strength `1` and consequent
`Triangular(2,5,8)`, the aggregated memberships at `0,…,9` are
`0, 0, 0, 1/3, 2/3, 1, 2/3, 1/3, 0, 0` (point `8` yields `0` because
`x ≥ c`), the centroid sums are `(15, 3)`, and `evaluate` returns
exactly `5`, the triangle's peak. -/
theorem evaluate_worked_example :
    arange 0 10 1 = [0, 1, 2, 3, 4, 5, 6, 7, 8, 9] ∧
    rule_strengths [] (fun _ => none) [([], "out", "medium")] = some [(1, "out", "medium")] ∧
    (List.map
      (fun y => max_membership ⟨"out", arange 0 10 1, [("medium", "trimf", [2, 5, 8])]⟩ y 0
        [(1, "out", "medium")])
      [0, 1, 2, 3, 4, 5, 6, 7, 8, 9]) =
      [some 0, some 0, some 0, some (1/3), some (2/3), some 1, some (2/3), some (1/3),
        some 0, some 0] ∧
    centroid_sums ⟨"out", arange 0 10 1, [("medium", "trimf", [2, 5, 8])]⟩
      [(1, "out", "medium")] 0 0 (arange 0 10 1) = some (15, 3) ∧
    FuzzyInferenceSystem.evaluate
      ⟨[], [("out", ⟨"out", arange 0 10 1, [("medium", "trimf", [2, 5, 8])]⟩)],
        [([], "out", "medium")]⟩ (fun _ => none) = some 5 := by
  have h : arange 0 10 1 = [0, 1, 2, 3, 4, 5, 6, 7, 8, 9] := by
    norm_num [arange]
    decide
  refine ⟨h, rfl, ?_, ?_, ?_⟩
  · norm_num [max_membership, FuzzySet.calculate_membership, List.lookup, trimf,
      min_def, max_def]
  · rw [h]
    norm_num [centroid_sums, max_membership, FuzzySet.calculate_membership, List.lookup,
      trimf, min_def, max_def]
  · norm_num [FuzzyInferenceSystem.evaluate, rule_strengths, rule_strength, h,
      centroid_sums, max_membership, FuzzySet.calculate_membership, List.lookup, trimf,
      min_def, max_def]

/-- Helper for C4: renaming the output-variable name stored in each
consequent commutes with the rule-strength phase (which never reads
it). -/
theorem rule_strengths_map_rename (input_sets : List (String × FuzzySet))
    (inputs : String → Option ℚ) (g : String → String) :
    ∀ rules : List Rule,
      rule_strengths input_sets inputs (rules.map (fun r => (r.1, g r.2.1, r.2.2))) =
        (rule_strengths input_sets inputs rules).map
          (List.map (fun sc => (sc.1, g sc.2.1, sc.2.2))) := by
  intro rules
  induction rules with
  | nil => rfl
  | cons r rest ih =>
    obtain ⟨ants, oname, label⟩ := r
    simp only [List.map_cons, rule_strengths]
    cases rule_strength input_sets inputs 1 ants with
    | none => rfl
    | some s =>
      rw [ih]
      cases rule_strengths input_sets inputs rest with
      | none => rfl
      | some l => rfl

/-- Helper for C4: the aggregation loop reads only strengths and
consequent labels, never the consequent's output-variable name. -/
theorem max_membership_map_rename (output_set : FuzzySet) (x : ℚ) (g : String → String) :
    ∀ (rs : List (ℚ × String × String)) (acc : ℚ),
      max_membership output_set x acc (rs.map (fun sc => (sc.1, g sc.2.1, sc.2.2))) =
        max_membership output_set x acc rs := by
  intro rs
  induction rs with
  | nil =>
    intro acc
    rfl
  | cons sc rest ih =>
    intro acc
    obtain ⟨s, oname, label⟩ := sc
    simp only [List.map_cons, max_membership]
    cases output_set.calculate_membership label x with
    | none => rfl
    | some m => exact ih _

/-- Helper for C4: consequence of the previous lemma for the whole
centroid loop. -/
theorem centroid_sums_map_rename (output_set : FuzzySet) (g : String → String)
    (rs : List (ℚ × String × String)) :
    ∀ (univ : List ℚ) (num den : ℚ),
      centroid_sums output_set (rs.map (fun sc => (sc.1, g sc.2.1, sc.2.2))) num den univ =
        centroid_sums output_set rs num den univ := by
  intro univ
  induction univ with
  | nil =>
    intro num den
    rfl
  | cons y rest ih =>
    intro num den
    simp only [centroid_sums]
    rw [max_membership_map_rename output_set y g rs 0]
    cases max_membership output_set y 0 rs with
    | none => rfl
    | some mm => exact ih _ _

/-- Claim C4: defuzzification uses exactly the first registered output
variable.  First conjunct: rewriting every consequent's
output-variable name (by an arbitrary renaming `g`) leaves the result
of `evaluate` unchanged — only the consequent's label is looked up, on
that fixed output variable.  Second conjunct: replacing the output
registry by any registry with the same first entry leaves the result
unchanged. -/
theorem evaluate_first_output_only :
    (∀ (fis : FuzzyInferenceSystem) (inputs : String → Option ℚ) (g : String → String),
      fis.rules ≠ [] →
      FuzzyInferenceSystem.evaluate
        ⟨fis.input_sets, fis.output_sets, fis.rules.map (fun r => (r.1, g r.2.1, r.2.2))⟩
        inputs = fis.evaluate inputs) ∧
    (∀ (fis : FuzzyInferenceSystem) (inputs : String → Option ℚ)
      (alt : List (String × FuzzySet)),
      fis.rules ≠ [] → fis.output_sets.head? = alt.head? →
      FuzzyInferenceSystem.evaluate ⟨fis.input_sets, alt, fis.rules⟩ inputs =
        fis.evaluate inputs) := by
  constructor
  · intro fis inputs g _
    simp only [FuzzyInferenceSystem.evaluate]
    rw [rule_strengths_map_rename]
    cases h : rule_strengths fis.input_sets inputs fis.rules with
    | none => rfl
    | some rs =>
      cases rs with
      | nil => rfl
      | cons p rl =>
        simp only [Option.map_some', List.map_cons]
        rw [if_neg (List.cons_ne_nil _ _), if_neg (List.cons_ne_nil _ _)]
        cases ho : fis.output_sets with
        | nil => rfl
        | cons o t =>
          obtain ⟨onm, os⟩ := o
          have hmc : ((p.1, g p.2.1, p.2.2) ::
                List.map (fun sc => (sc.1, g sc.2.1, sc.2.2)) rl)
              = List.map (fun sc => (sc.1, g sc.2.1, sc.2.2)) (p :: rl) := rfl
          show (match centroid_sums os ((p.1, g p.2.1, p.2.2) ::
                List.map (fun sc => (sc.1, g sc.2.1, sc.2.2)) rl) 0 0 os.univ with
            | none => none
            | some (numerator, denominator) =>
              some (if denominator ≠ 0 then numerator / denominator else 0)) =
            (match centroid_sums os (p :: rl) 0 0 os.univ with
            | none => none
            | some (numerator, denominator) =>
              some (if denominator ≠ 0 then numerator / denominator else 0))
          rw [hmc, centroid_sums_map_rename os g (p :: rl)]
  · intro fis inputs alt _ hhead
    simp only [FuzzyInferenceSystem.evaluate]
    cases h : rule_strengths fis.input_sets inputs fis.rules with
    | none => rfl
    | some rs =>
      cases rs with
      | nil => rfl
      | cons p rl =>
        cases ho : fis.output_sets with
        | nil =>
          cases ha : alt with
          | nil => rfl
          | cons o t =>
            rw [ho, ha] at hhead
            simp at hhead
        | cons o t =>
          cases ha : alt with
          | nil =>
            rw [ho, ha] at hhead
            simp at hhead
          | cons o2 t2 =>
            rw [ho, ha] at hhead
            simp only [List.head?_cons, Option.some.injEq] at hhead
            rw [hhead]

/-- Claim C4 witness: renaming the consequent's output name to
`"renamed"` and swapping the second output entry both leave the result
unchanged. -/
theorem evaluate_first_output_only_witness :
    (FuzzyInferenceSystem.evaluate
        ⟨[], [("o1", ⟨"o1", [0, 1], [("m", "trimf", [0, 1, 2])]⟩)],
          [([], "renamed", "m")]⟩ (fun _ => none) =
      FuzzyInferenceSystem.evaluate
        ⟨[], [("o1", ⟨"o1", [0, 1], [("m", "trimf", [0, 1, 2])]⟩)],
          [([], "zzz", "m")]⟩ (fun _ => none)) ∧
    (FuzzyInferenceSystem.evaluate
        ⟨[], [("o1", ⟨"o1", [0, 1], [("m", "trimf", [0, 1, 2])]⟩), ("o3", ⟨"o3", [], []⟩)],
          [([], "zzz", "m")]⟩ (fun _ => none) =
      FuzzyInferenceSystem.evaluate
        ⟨[], [("o1", ⟨"o1", [0, 1], [("m", "trimf", [0, 1, 2])]⟩), ("o2", ⟨"o2", [], []⟩)],
          [([], "zzz", "m")]⟩ (fun _ => none)) :=
  ⟨evaluate_first_output_only.1
      ⟨[], [("o1", ⟨"o1", [0, 1], [("m", "trimf", [0, 1, 2])]⟩)], [([], "zzz", "m")]⟩
      (fun _ => none) (fun _ => "renamed") (by simp),
   evaluate_first_output_only.2
      ⟨[], [("o1", ⟨"o1", [0, 1], [("m", "trimf", [0, 1, 2])]⟩), ("o2", ⟨"o2", [], []⟩)],
        [([], "zzz", "m")]⟩
      (fun _ => none)
      [("o1", ⟨"o1", [0, 1], [("m", "trimf", [0, 1, 2])]⟩), ("o3", ⟨"o3", [], []⟩)]
      (by simp) rfl⟩

/-- Spec-side default linguistic variable, never reached under the
well-formedness hypotheses of claim C1. -/
def defaultFS : FuzzySet := ⟨"", [], []⟩

/-- Spec-side total membership degree (spec 4.1–4.2): the degree a
label assigns to `x`, with `0` standing in for the failure cases the
well-formedness hypotheses rule out. -/
def membership_of (fs : FuzzySet) (label : String) (x : ℚ) : ℚ :=
  (fs.calculate_membership label x).getD 0

/-- Spec-side firing strength (spec 4.3 step 1): the minimum, starting
from `1`, over the antecedents, of the membership of the referenced
input value under the referenced input variable's labelled membership
function. -/
def firing_strength (input_sets : List (String × FuzzySet)) (inputs : String → Option ℚ)
    (antecedents : List (String × String)) : ℚ :=
  antecedents.foldl
    (fun s vm =>
      min s (membership_of ((input_sets.lookup vm.1).getD defaultFS) vm.2
        ((inputs vm.1).getD 0))) 1

/-- Spec-side aggregated membership at a universe point `y` (spec 4.3
step 3): the maximum over the rules of `min(firing strength, membership
of the consequent label at y)`, starting from `0`. -/
def aggregated (fis : FuzzyInferenceSystem) (inputs : String → Option ℚ)
    (output_set : FuzzySet) (y : ℚ) : ℚ :=
  fis.rules.foldl
    (fun m r =>
      max m (min (firing_strength fis.input_sets inputs r.1)
        (membership_of output_set r.2.2 y))) 0

/-- Spec-side centroid numerator `Σ y · aggregated(y)` over the output
universe. -/
def centroid_numerator (fis : FuzzyInferenceSystem) (inputs : String → Option ℚ)
    (output_set : FuzzySet) : ℚ :=
  (output_set.univ.map (fun y => y * aggregated fis inputs output_set y)).sum

/-- Spec-side centroid denominator `Σ aggregated(y)` over the output
universe. -/
def centroid_denominator (fis : FuzzyInferenceSystem) (inputs : String → Option ℚ)
    (output_set : FuzzySet) : ℚ :=
  (output_set.univ.map (aggregated fis inputs output_set)).sum

/-- One antecedent resolves: its input value is present, its input
variable is registered, and the membership computation does not
raise. -/
def antecedentOK (input_sets : List (String × FuzzySet)) (inputs : String → Option ℚ)
    (vm : String × String) : Bool :=
  match inputs vm.1 with
  | none => false
  | some x =>
    match input_sets.lookup vm.1 with
    | none => false
    | some fs => (fs.calculate_membership vm.2 x).isSome

/-- Well-formedness of an engine with respect to an input mapping and
an output variable: every antecedent of every rule resolves, and every
rule's consequent label computes on every point of the output
universe.  These are exactly the error conditions the spec catalogues
separately (UnknownVariable, UnknownLabel, MissingInput, degenerate
division). -/
def WellFormed (fis : FuzzyInferenceSystem) (inputs : String → Option ℚ)
    (output_set : FuzzySet) : Prop :=
  (∀ r ∈ fis.rules, ∀ vm ∈ r.1, antecedentOK fis.input_sets inputs vm = true) ∧
  (∀ r ∈ fis.rules, ∀ y ∈ output_set.univ,
    (output_set.calculate_membership r.2.2 y).isSome = true)

/-- Helper for C1: with resolvable antecedents the firing-strength loop
returns the spec-side fold. -/
theorem rule_strength_eq_foldl (input_sets : List (String × FuzzySet))
    (inputs : String → Option ℚ) :
    ∀ (ants : List (String × String)) (acc : ℚ),
      (∀ vm ∈ ants, antecedentOK input_sets inputs vm = true) →
      rule_strength input_sets inputs acc ants =
        some (ants.foldl
          (fun s vm =>
            min s (membership_of ((input_sets.lookup vm.1).getD defaultFS) vm.2
              ((inputs vm.1).getD 0))) acc) := by
  intro ants
  induction ants with
  | nil =>
    intro acc _
    rfl
  | cons vm rest ih =>
    intro acc h
    obtain ⟨vn, mn⟩ := vm
    have hvm : antecedentOK input_sets inputs (vn, mn) = true :=
      h _ (List.mem_cons_self _ _)
    simp only [antecedentOK] at hvm
    cases hx : inputs vn with
    | none =>
      simp only [hx] at hvm
      simp at hvm
    | some x =>
      simp only [hx] at hvm
      cases hfs : input_sets.lookup vn with
      | none =>
        simp only [hfs] at hvm
        simp at hvm
      | some fs =>
        simp only [hfs] at hvm
        cases hm : fs.calculate_membership mn x with
        | none =>
          rw [hm] at hvm
          simp at hvm
        | some m =>
          have hmo : membership_of fs mn x = m := by
            simp [membership_of, hm]
          simp only [rule_strength, hx, hfs, hm, List.foldl_cons, Option.getD_some]
          rw [hmo]
          exact ih (min acc m) (fun vm2 hvm2 => h vm2 (List.mem_cons_of_mem _ hvm2))

/-- Helper for C1: with resolvable antecedents the rule-strength phase
returns one `(firing strength, consequent)` pair per rule. -/
theorem rule_strengths_eq_map (input_sets : List (String × FuzzySet))
    (inputs : String → Option ℚ) :
    ∀ rules : List Rule,
      (∀ r ∈ rules, ∀ vm ∈ r.1, antecedentOK input_sets inputs vm = true) →
      rule_strengths input_sets inputs rules =
        some (rules.map (fun r => (firing_strength input_sets inputs r.1, r.2))) := by
  intro rules
  induction rules with
  | nil =>
    intro _
    rfl
  | cons r rest ih =>
    intro h
    obtain ⟨ants, conseq⟩ := r
    simp only [rule_strengths]
    rw [rule_strength_eq_foldl input_sets inputs ants 1
      (fun vm hvm => h _ (List.mem_cons_self _ _) vm hvm)]
    rw [ih (fun r2 hr2 vm hvm => h r2 (List.mem_cons_of_mem _ hr2) vm hvm)]
    rfl

/-- Helper for C1: when every consequent label computes at `y`, the
aggregation loop returns the spec-side fold. -/
theorem max_membership_eq_foldl (output_set : FuzzySet) (y : ℚ) :
    ∀ rs : List (ℚ × String × String),
      (∀ sc ∈ rs, (output_set.calculate_membership sc.2.2 y).isSome = true) →
      ∀ acc : ℚ,
        max_membership output_set y acc rs =
          some (rs.foldl
            (fun m sc => max m (min sc.1 (membership_of output_set sc.2.2 y))) acc) := by
  intro rs
  induction rs with
  | nil =>
    intro _ acc
    rfl
  | cons sc rest ih =>
    intro h acc
    obtain ⟨s, oname, label⟩ := sc
    have hsc : (output_set.calculate_membership label y).isSome = true :=
      h _ (List.mem_cons_self _ _)
    cases hm : output_set.calculate_membership label y with
    | none =>
      rw [hm] at hsc
      simp at hsc
    | some m =>
      have hmo : membership_of output_set label y = m := by
        simp [membership_of, hm]
      simp only [max_membership, hm, List.foldl_cons]
      rw [hmo]
      exact ih (fun sc2 hsc2 => h sc2 (List.mem_cons_of_mem _ hsc2)) _

/-- Helper for C1: the centroid loop accumulates exactly the two
spec-side sums. -/
theorem centroid_sums_eq (output_set : FuzzySet) (rs : List (ℚ × String × String))
    (agg : ℚ → ℚ) :
    ∀ univ : List ℚ, (∀ y ∈ univ, max_membership output_set y 0 rs = some (agg y)) →
      ∀ num den : ℚ,
        centroid_sums output_set rs num den univ =
          some (num + (univ.map (fun y => y * agg y)).sum, den + (univ.map agg).sum) := by
  intro univ
  induction univ with
  | nil =>
    intro _ num den
    simp [centroid_sums]
  | cons y rest ih =>
    intro h num den
    simp only [centroid_sums]
    rw [h y (List.mem_cons_self y rest)]
    show centroid_sums output_set rs (num + y * agg y) (den + agg y) rest = _
    rw [ih (fun z hz => h z (List.mem_cons_of_mem y hz)) (num + y * agg y) (den + agg y)]
    simp [List.map_cons, List.sum_cons, add_assoc]

/-- Claim C1: for a well-formed engine with a non-empty rule list, a
first registered output variable, and a nonzero aggregated mass,
`evaluate` returns exactly the spec's centroid
`Σ y · aggregated(y) / Σ aggregated(y)` over the first output
variable's universe, where `aggregated(y)` is the maximum over the
rules of `min(firing strength, consequent membership at y)` and the
firing strength is the minimum over the antecedents of the membership
of the input value. -/
theorem evaluate_centroid (fis : FuzzyInferenceSystem) (inputs : String → Option ℚ)
    (oname : String) (output_set : FuzzySet) (rest : List (String × FuzzySet))
    (hout : fis.output_sets = (oname, output_set) :: rest)
    (hrules : fis.rules ≠ [])
    (hwf : WellFormed fis inputs output_set)
    (hden : centroid_denominator fis inputs output_set ≠ 0) :
    fis.evaluate inputs =
      some (centroid_numerator fis inputs output_set /
        centroid_denominator fis inputs output_set) := by
  obtain ⟨hwf1, hwf2⟩ := hwf
  have hrs := rule_strengths_eq_map fis.input_sets inputs fis.rules hwf1
  have hagg : ∀ y ∈ output_set.univ,
      max_membership output_set y 0
        (fis.rules.map (fun r => (firing_strength fis.input_sets inputs r.1, r.2))) =
          some (aggregated fis inputs output_set y) := by
    intro y hy
    have hOK : ∀ sc ∈ fis.rules.map
        (fun r => (firing_strength fis.input_sets inputs r.1, r.2)),
        (output_set.calculate_membership sc.2.2 y).isSome = true := by
      intro sc hsc
      obtain ⟨r, hr, rfl⟩ := List.mem_map.mp hsc
      exact hwf2 r hr y hy
    rw [max_membership_eq_foldl output_set y _ hOK 0]
    unfold aggregated
    rw [List.foldl_map]
  have hcs := centroid_sums_eq output_set
    (fis.rules.map (fun r => (firing_strength fis.input_sets inputs r.1, r.2)))
    (aggregated fis inputs output_set) output_set.univ hagg 0 0
  have hmapne : fis.rules.map
      (fun r => (firing_strength fis.input_sets inputs r.1, r.2)) ≠ [] := by
    intro hmap
    exact hrules (List.map_eq_nil_iff.mp hmap)
  have hden2 : (0 : ℚ) + (output_set.univ.map (aggregated fis inputs output_set)).sum ≠ 0 := by
    rw [zero_add]
    exact hden
  simp only [FuzzyInferenceSystem.evaluate, hrs, hout]
  rw [if_neg hmapne, hcs]
  show some (if (0 : ℚ) + (output_set.univ.map (aggregated fis inputs output_set)).sum ≠ 0
      then ((0 : ℚ) + (output_set.univ.map
        (fun y => y * aggregated fis inputs output_set y)).sum) /
        ((0 : ℚ) + (output_set.univ.map (aggregated fis inputs output_set)).sum)
      else 0) = _
  rw [if_pos hden2, zero_add, zero_add]
  rfl

/-- Claim C1 witness: a one-input, one-rule engine (input value `5`
fires the rule at strength `1`, consequent `Triangular(2,5,8)` over the
universe `{0,…,9}`) reaches the spec-side centroid. -/
theorem evaluate_centroid_witness :
    FuzzyInferenceSystem.evaluate
      ⟨[("t", ⟨"t", [0, 1], [("warm", "trimf", [0, 5, 10])]⟩)],
        [("out", ⟨"out", [0, 1, 2, 3, 4, 5, 6, 7, 8, 9], [("medium", "trimf", [2, 5, 8])]⟩)],
        [([("t", "warm")], "out", "medium")]⟩ (fun _ => some 5) =
      some (centroid_numerator
          ⟨[("t", ⟨"t", [0, 1], [("warm", "trimf", [0, 5, 10])]⟩)],
            [("out", ⟨"out", [0, 1, 2, 3, 4, 5, 6, 7, 8, 9],
              [("medium", "trimf", [2, 5, 8])]⟩)],
            [([("t", "warm")], "out", "medium")]⟩ (fun _ => some 5)
          ⟨"out", [0, 1, 2, 3, 4, 5, 6, 7, 8, 9], [("medium", "trimf", [2, 5, 8])]⟩ /
        centroid_denominator
          ⟨[("t", ⟨"t", [0, 1], [("warm", "trimf", [0, 5, 10])]⟩)],
            [("out", ⟨"out", [0, 1, 2, 3, 4, 5, 6, 7, 8, 9],
              [("medium", "trimf", [2, 5, 8])]⟩)],
            [([("t", "warm")], "out", "medium")]⟩ (fun _ => some 5)
          ⟨"out", [0, 1, 2, 3, 4, 5, 6, 7, 8, 9], [("medium", "trimf", [2, 5, 8])]⟩) :=
  evaluate_centroid
    ⟨[("t", ⟨"t", [0, 1], [("warm", "trimf", [0, 5, 10])]⟩)],
      [("out", ⟨"out", [0, 1, 2, 3, 4, 5, 6, 7, 8, 9], [("medium", "trimf", [2, 5, 8])]⟩)],
      [([("t", "warm")], "out", "medium")]⟩ (fun _ => some 5)
    "out" ⟨"out", [0, 1, 2, 3, 4, 5, 6, 7, 8, 9], [("medium", "trimf", [2, 5, 8])]⟩ []
    rfl (by simp)
    ⟨by
      intro r hr vm hvm
      simp only [List.mem_singleton] at hr
      subst hr
      simp only [List.mem_singleton] at hvm
      subst hvm
      norm_num [antecedentOK, FuzzySet.calculate_membership, List.lookup, trimf],
     by
      intro r hr y hy
      simp only [List.mem_singleton] at hr
      subst hr
      simp only [FuzzySet.calculate_membership, List.lookup, trimf]
      norm_num
      split_ifs <;> simp⟩
    (by norm_num [centroid_denominator, aggregated, firing_strength, membership_of,
      FuzzySet.calculate_membership, List.lookup, trimf, min_def, max_def])
